import Mathlib

/-!
Shallow embedding of `generate.py` (startup-name-generator) and proofs of the
specification's claims about it.

Conventions used throughout:

* Python floats are modelled as real numbers.  `np.exp(np.log(x) / t)` at
  `x = 0` evaluates to `0` in IEEE arithmetic (`log 0 = -inf`, `-inf / t = -inf`
  for `t > 0`, `exp (-inf) = 0`); the embedding reflects this with an explicit
  zero case.
* The pseudo-random draws `np.random.choice(VOCAB_SIZE, p = ...)` made by the
  word generator are modelled as an oracle stream `s : Nat → Nat` of sampled
  indices, consumed left to right.  A draw from a valid length-`V` probability
  vector yields an index `< V`; this appears as the hypothesis `∀ n, s n < V`.
* The numpy arrays `X`, `Y` are modelled as functions `Nat → Nat → Nat → Nat`
  (word index, timestep, vocabulary index) obtained by folding the source's
  assignment loops over the same index ranges, starting from the all-zero
  array created by `np.zeros`.
* Words are `List Char`; the word list handed over by `text_to_words` is a
  `List (List Char)`.
-/

/-- `MAX_WORD_LEN = 12` — maximum company name length (source line 66). -/
def MAX_WORD_LEN : Nat := 12

/-- `NUM_EPOCHS = 500` — the hard-coded epoch count used at the `model.fit`
call (source lines 159 and 166). -/
def NUM_EPOCHS : Nat := 500

/-- Default value of the `--epochs` command-line option (source line 27:
`type = int, default = 100`). -/
def epochsDefault : Nat := 100

/-- The number of epochs `model.fit` actually runs, as a function of the
parsed `--epochs` value: the source passes `epochs = NUM_EPOCHS` at line 166
and never reads `args.epochs` after parsing it. -/
def fitEpochs (args_epochs : Nat) : Nat := NUM_EPOCHS

/-- `chars = sorted(list(set([char for word in words for char in word])))`
(source line 62): the deduplicated characters of the word list, sorted in
ascending code-point order. -/
def vocabChars (words : List (List Char)) : List Char :=
  List.insertionSort (· ≤ ·) words.flatten.dedup

/-- `ix_to_char = {ix: char for ix, char in enumerate(chars)}` (source
line 75).  An out-of-range lookup — a `KeyError` in Python, never reached on
the claims' inputs — returns the junk character `'?'`. -/
def ix_to_char (words : List (List Char)) (ix : Nat) : Char :=
  (vocabChars words).getD ix '?'

/-- `char_to_ix = {char: ix for ix, char in enumerate(chars)}` (source
line 76).  Since `chars` has no duplicates, the index of the first occurrence
is the unique index of the character. -/
def char_to_ix (words : List (List Char)) (c : Char) : Nat :=
  (vocabChars words).indexOf c

/-- The slice `X[word_i, ·, ·]` produced by the encoding loop (source lines
86–89) for a single word `w`: for `char_j` in `range(min(len(w), MAX_WORD_LEN))`
set `X[word_i, char_j, char_to_ix(w[char_j])] = 1`.  The outer loop over
`word_i` touches each slice exactly once, so the array decomposes per word. -/
def encodeX (c2i : Char → Nat) (w : List Char) : Nat → Nat → Nat :=
  (List.range (min w.length MAX_WORD_LEN)).foldl
    (fun f j => fun t k => if t = j ∧ k = c2i (w.getD j '?') then 1 else f t k)
    (fun _ _ => 0)

/-- The slice `Y[word_i, ·, ·]` produced by the same loop (source lines
90–91): for `char_j > 0` set `Y[word_i, char_j - 1, char_to_ix(w[char_j])] = 1`
— the next-character target shifted one timestep back. -/
def encodeY (c2i : Char → Nat) (w : List Char) : Nat → Nat → Nat :=
  (List.range (min w.length MAX_WORD_LEN)).foldl
    (fun f j =>
      if 0 < j then
        fun t k => if t = j - 1 ∧ k = c2i (w.getD j '?') then 1 else f t k
      else f)
    (fun _ _ => 0)

/-- The full input tensor `X` (source lines 78, 81–89). -/
def X (words : List (List Char)) (i t k : Nat) : Nat :=
  encodeX (char_to_ix words) (words.getD i []) t k

/-- The full target tensor `Y` (source lines 79, 81–91). -/
def Y (words : List (List Char)) (i t k : Nat) : Nat :=
  encodeY (char_to_ix words) (words.getD i []) t k

/-- IEEE semantics of one entry of `np.exp(np.log(probs) / temperature)`
(source line 107): a zero probability gives `log 0 = -inf` and
`exp (-inf / t) = 0` for every `t > 0`, so the entry maps to `0`; a positive
entry is exact real arithmetic. -/
noncomputable def powT (x t : ℝ) : ℝ :=
  if x = 0 then 0 else Real.exp (Real.log x / t)

/-- `temp_scale(probs, temperature)` (source lines 104–109): exponentiate the
log-probabilities scaled by `1 / temperature` (line 107), then divide each
entry by the sum of the exponentiated vector (line 108). -/
noncomputable def temp_scale (probs : List ℝ) (temperature : ℝ) : List ℝ :=
  (probs.map (fun x => powT x temperature)).map
    (fun x => x / (probs.map (fun y => powT y temperature)).sum)

/-- The `while ix == 0` loop sampling the first character (source lines
118–120): draw from the oracle until a non-zero index appears.  The Python
loop is uncapped; `fuel` makes the embedding total, and `none` models
divergence.  Returns the accepted index and the next oracle position. -/
def sampleFirst (s : Nat → Nat) : Nat → Nat → Option (Nat × Nat)
  | 0, _ => none
  | fuel + 1, pos =>
    if s pos = 0 then sampleFirst s fuel (pos + 1) else some (s pos, pos + 1)

/-- The inner rejection loop of `generate_word` (source lines 132–141).  The
caller has just drawn `ix`; while `ix == 0 ∧ i < minLen` the loop increments
`ctr`, redraws, and breaks with a diagnostic once `ctr > 1000`.  The embedding
counts down `rem = 1000 - ctr` instead of up, so the recursion is structural;
the `Bool` result records whether the `ctr > 1000` break fired (the printed
diagnostic).  Returns `(accepted index, next oracle position, cap-exhausted)`. -/
def innerGo (s : Nat → Nat) (i minLen : Nat) : Nat → Nat → Nat → Nat × Nat × Bool
  | ix, pos, 0 =>
    if ix = 0 ∧ i < minLen then (s pos, pos + 1, true) else (ix, pos, false)
  | ix, pos, rem + 1 =>
    if ix = 0 ∧ i < minLen then innerGo s i minLen (s pos) (pos + 1) rem
    else (ix, pos, false)

/-- The generation loop `for i in range(1, MAX_WORD_LEN)` of `generate_word`
(source lines 126–147), with `steps = MAX_WORD_LEN - i` remaining iterations:
draw the next index, run the rejection loop, break (without appending) when
the accepted index is the end marker `0`, otherwise append `ix_to_char[ix]`
and continue.  The `Bool` accumulator records whether any step exhausted the
1000-cap. -/
def genLoop (s : Nat → Nat) (i2c : Nat → Char) (minLen : Nat) :
    Nat → Nat → Nat → List Char → Bool → List Char × Bool
  | 0, _, _, word, capEx => (word, capEx)
  | steps + 1, i, pos, word, capEx =>
    let r := innerGo s i minLen (s pos) (pos + 1) 1000
    if r.1 = 0 then (word, capEx || r.2.2)
    else genLoop s i2c minLen steps (i + 1) r.2.1 (word ++ [i2c r.1]) (capEx || r.2.2)

/-- `generate_word(model, temperature, min_word_length)` (source lines
112–149), abstracted over the oracle stream of sampled indices: sample a
non-zero first character, start the word with it uppercased
(`ix_to_char[ix].upper()`), then run the generation loop from timestep 1.
Returns the generated word together with the cap-exhaustion flag, or `none`
when the uncapped first-character loop exceeds `fuel`. -/
def generate_word (s : Nat → Nat) (i2c : Nat → Char) (min_word_length fuel : Nat) :
    Option (List Char × Bool) :=
  match sampleFirst s fuel 0 with
  | none => none
  | some (ix, pos) =>
    some (genLoop s i2c min_word_length (MAX_WORD_LEN - 1) 1 pos [(i2c ix).toUpper] false)

/-- The externally visible actions of the top-level script. -/
inductive Effect where
  | train : Effect
  | save : Effect
  | load : Effect
  | generate : Effect
  | configError : Effect
deriving DecidableEq

/-- The sequence of externally visible actions performed after argument
parsing (source lines 162–174): if `args.modelpath != None` the model is
loaded, otherwise it is trained (`model.fit`) and, when `args.savepath !=
None`, saved; in every case `args.nwords` words are then generated.  No
branch emits `Effect.configError`. -/
def runEffects (modelpath savepath : Option String) (nwords : Nat) : List Effect :=
  if modelpath ≠ none then
    Effect.load :: List.replicate nwords Effect.generate
  else
    Effect.train ::
      ((if savepath ≠ none then [Effect.save] else []) ++
        List.replicate nwords Effect.generate)

/-! ### Helper lemmas about the effect model -/

theorem runEffects_some (p : String) (s : Option String) (n : Nat) :
    runEffects (some p) s n = Effect.load :: List.replicate n Effect.generate := by
  simp [runEffects]

/-! ### Claim C1 -/

/-- C1: the claim says training runs for the epoch count supplied through the
`--epochs` option (default 100).  The code instead passes the hard-coded
`NUM_EPOCHS = 500` to `model.fit` and never reads `args.epochs`: at the
default configuration `--epochs 100` the model trains for 500 epochs, not
100.  This theorem evaluates the embedded code at that failing input. -/
theorem C1_fit_ignores_epochs_option :
    fitEpochs epochsDefault = 500 ∧ fitEpochs epochsDefault ≠ epochsDefault := by
  exact ⟨rfl, by decide⟩

/-! ### Claim C2 -/

/-- C2 counterexample: with both a load path and a save path supplied (a
conflicting configuration), no configuration error is surfaced and the run
does proceed — it loads the model and generates words.  This refutes the
claim that a conflicting configuration is fatal and never proceeds to load
or generate. -/
theorem C2_counterexample :
    Effect.configError ∉ runEffects (some "model.h5") (some "save.h5") 10 ∧
    Effect.load ∈ runEffects (some "model.h5") (some "save.h5") 10 ∧
    Effect.generate ∈ runEffects (some "model.h5") (some "save.h5") 10 := by
  decide

/-- C2 (amended): the load path and the train path are mutually exclusive in
execution, but not guarded by an error: when a load path is supplied together
with a save path, the run raises no configuration error, never trains and
never saves — the load path silently takes precedence and the run proceeds
to load the model and generate words. -/
theorem C2_load_path_silently_wins (p s : String) (n : Nat) :
    runEffects (some p) (some s) n = Effect.load :: List.replicate n Effect.generate ∧
    Effect.train ∉ runEffects (some p) (some s) n ∧
    Effect.save ∉ runEffects (some p) (some s) n ∧
    Effect.configError ∉ runEffects (some p) (some s) n := by
  refine ⟨runEffects_some p (some s) n, ?_, ?_, ?_⟩ <;>
    simp [runEffects, List.mem_replicate]

/-! ### Claim C10 -/

/-- C10: when a load-model path is supplied, the save side effect never
occurs and training is skipped entirely — any supplied save path is silently
ignored and the model is loaded as-is. -/
theorem C10_load_skips_train_and_save (p : String) (s : Option String) (n : Nat) :
    Effect.save ∉ runEffects (some p) s n ∧
    Effect.train ∉ runEffects (some p) s n ∧
    Effect.load ∈ runEffects (some p) s n := by
  refine ⟨?_, ?_, ?_⟩ <;> simp [runEffects, List.mem_replicate]

/-! ### Helper lemmas about `temp_scale` -/

theorem list_sum_div (l : List ℝ) (c : ℝ) :
    (l.map (fun x => x / c)).sum = l.sum / c := by
  induction l with
  | nil => simp
  | cons a l ih => simp [ih, add_div]

theorem powT_nonneg (x t : ℝ) : 0 ≤ powT x t := by
  unfold powT
  split
  · exact le_refl 0
  · exact le_of_lt (Real.exp_pos _)

theorem powT_pos_of_ne_zero {x : ℝ} (t : ℝ) (hx : x ≠ 0) : 0 < powT x t := by
  unfold powT
  rw [if_neg hx]
  exact Real.exp_pos _

/-! ### Claim C5 -/

/-- C5: `temp_scale` is the identity at temperature 1 — for every valid
probability distribution `p` (non-negative entries summing to 1),
`temp_scale p 1 = p` exactly, over exact real arithmetic. -/
theorem C5_temp_scale_one_identity (p : List ℝ)
    (hp : ∀ x ∈ p, 0 ≤ x) (hsum : p.sum = 1) :
    temp_scale p 1 = p := by
  unfold temp_scale
  have hmap : p.map (fun x => powT x 1) = p := by
    conv_rhs => rw [← List.map_id p]
    apply List.map_congr_left
    intro x hx
    by_cases h : x = 0
    · simp [powT, h]
    · have hx0 : 0 < x := lt_of_le_of_ne (hp x hx) (Ne.symm h)
      simp [powT, h, Real.exp_log hx0]
  rw [hmap, hsum]
  simp

/-- C5 witness: the theorem applied to the concrete distribution `[1]`. -/
theorem C5_witness : temp_scale [1] 1 = [1] :=
  C5_temp_scale_one_identity [1] (by intro x hx; simp at hx; simp [hx]) (by simp)

/-! ### Claim C6 -/

/-- C6: for every valid probability distribution `p` and temperature `t > 0`,
the output of `temp_scale p t` is again a valid probability distribution —
every entry is non-negative and the entries sum to exactly 1 over exact real
arithmetic, even when some entries of `p` are exactly zero (a zero entry maps
to `exp (-inf) = 0` and the renormalizing sum stays positive because a valid
distribution has a non-zero entry, so no 0/0 occurs). -/
theorem C6_temp_scale_valid_distribution (p : List ℝ) (t : ℝ)
    (hp : ∀ x ∈ p, 0 ≤ x) (hsum : p.sum = 1) (ht : 0 < t) :
    (∀ x ∈ temp_scale p t, 0 ≤ x) ∧ (temp_scale p t).sum = 1 := by
  have he : ∀ x ∈ p.map (fun y => powT y t), 0 ≤ x := by
    intro x hx
    obtain ⟨y, _, rfl⟩ := List.mem_map.1 hx
    exact powT_nonneg y t
  have hex : ∃ x ∈ p, x ≠ 0 := by
    by_contra h
    push_neg at h
    have : p.sum = 0 := List.sum_eq_zero h
    rw [hsum] at this
    exact one_ne_zero this
  obtain ⟨x0, hx0mem, hx0⟩ := hex
  have hmem : powT x0 t ∈ p.map (fun y => powT y t) :=
    List.mem_map.2 ⟨x0, hx0mem, rfl⟩
  have hS : 0 < (p.map (fun y => powT y t)).sum :=
    lt_of_lt_of_le (powT_pos_of_ne_zero t hx0)
      (List.single_le_sum he _ hmem)
  constructor
  · intro x hx
    unfold temp_scale at hx
    obtain ⟨y, hy, rfl⟩ := List.mem_map.1 hx
    exact div_nonneg (he y hy) (le_of_lt hS)
  · unfold temp_scale
    rw [list_sum_div]
    exact div_self (ne_of_gt hS)

/-- C6 witness: the theorem applied to the concrete distribution `[0, 1]`
(which has an exactly-zero entry) at temperature 2. -/
theorem C6_witness : (temp_scale [0, 1] 2).sum = 1 :=
  (C6_temp_scale_valid_distribution [0, 1] 2
    (by intro x hx; simp at hx; rcases hx with h | h <;> simp [h])
    (by simp) (by norm_num)).2

/-! ### Helper lemmas about lists and the vocabulary -/

theorem list_getD_eq_getElem {α : Type} (l : List α) (d : α) {i : Nat}
    (h : i < l.length) : l.getD i d = l[i] := by
  simp [List.getD_eq_getElem?_getD, List.getElem?_eq_getElem h]

theorem vocabChars_nodup (ws : List (List Char)) : (vocabChars ws).Nodup :=
  ((List.perm_insertionSort _ _).nodup_iff).2 (List.nodup_dedup _)

theorem vocabChars_sorted (ws : List (List Char)) :
    (vocabChars ws).Sorted (· ≤ ·) :=
  List.sorted_insertionSort _ _

theorem mem_vocabChars {ws : List (List Char)} {c : Char} :
    c ∈ vocabChars ws ↔ c ∈ ws.flatten := by
  unfold vocabChars
  rw [(List.perm_insertionSort _ _).mem_iff, List.mem_dedup]

theorem ix_to_char_char_to_ix {ws : List (List Char)} {c : Char}
    (h : c ∈ ws.flatten) : ix_to_char ws (char_to_ix ws c) = c := by
  unfold ix_to_char char_to_ix
  have hm : c ∈ vocabChars ws := mem_vocabChars.2 h
  have hlt : (vocabChars ws).indexOf c < (vocabChars ws).length :=
    List.indexOf_lt_length.2 hm
  rw [list_getD_eq_getElem _ _ hlt]
  exact List.getElem_indexOf hlt

theorem char_to_ix_ix_to_char {ws : List (List Char)} {i : Nat}
    (h : i < (vocabChars ws).length) : char_to_ix ws (ix_to_char ws i) = i := by
  unfold ix_to_char char_to_ix
  rw [list_getD_eq_getElem _ _ h]
  exact List.indexOf_getElem (vocabChars_nodup ws) i h

theorem vocab_head_eq_newline (ws : List (List Char))
    (h1 : '\n' ∈ ws.flatten) (h2 : ∀ c ∈ ws.flatten, '\n' ≤ c) :
    ix_to_char ws 0 = '\n' := by
  have hm : '\n' ∈ vocabChars ws := mem_vocabChars.2 h1
  rcases hv : vocabChars ws with _ | ⟨a, l⟩
  · rw [hv] at hm
    simp at hm
  · have hs := vocabChars_sorted ws
    rw [hv] at hs hm
    have hale : ∀ b ∈ l, a ≤ b := List.rel_of_sorted_cons hs
    have ha_mem : a ∈ ws.flatten := by
      have ham : a ∈ vocabChars ws := by
        rw [hv]
        exact List.mem_cons_self a l
      exact mem_vocabChars.1 ham
    have h_na : '\n' ≤ a := h2 a ha_mem
    have h_an : a ≤ '\n' := by
      rcases List.mem_cons.1 hm with h | h
      · exact le_of_eq h.symm
      · exact hale _ h
    unfold ix_to_char
    rw [hv]
    show a = '\n'
    exact le_antisymm h_an h_na

/-! ### Characterization of the encoding loop -/

theorem encodeX_range (c2i : Char → Nat) (w : List Char) (n : Nat) :
    ∀ t k,
      (List.range n).foldl
        (fun f j => fun t k => if t = j ∧ k = c2i (w.getD j '?') then 1 else f t k)
        (fun _ _ => 0) t k
      = if t < n ∧ k = c2i (w.getD t '?') then 1 else 0 := by
  induction n with
  | zero => intro t k; simp
  | succ n ih =>
    intro t k
    rw [List.range_succ, List.foldl_append]
    simp only [List.foldl_cons, List.foldl_nil]
    rw [ih t k]
    by_cases ht : t = n
    · subst ht
      by_cases hk : k = c2i (w.getD t '?')
      · have h2 : ¬ t < t := Nat.lt_irrefl _
        simp [hk, Nat.lt_succ_self, h2]
      · simp [hk]
    · by_cases hlt : t < n
      · have h1 : t < n + 1 := by omega
        simp [ht, hlt, h1]
      · have h2 : ¬ t < n + 1 := by omega
        simp [ht, hlt, h2]

theorem encodeX_eq (c2i : Char → Nat) (w : List Char) (t k : Nat) :
    encodeX c2i w t k
      = if t < min w.length MAX_WORD_LEN ∧ k = c2i (w.getD t '?') then 1 else 0 := by
  unfold encodeX
  exact encodeX_range c2i w _ t k

theorem encodeY_range (c2i : Char → Nat) (w : List Char) (n : Nat) :
    ∀ t k,
      (List.range n).foldl
        (fun f j =>
          if 0 < j then
            fun t k => if t = j - 1 ∧ k = c2i (w.getD j '?') then 1 else f t k
          else f)
        (fun _ _ => 0) t k
      = if t + 1 < n ∧ k = c2i (w.getD (t + 1) '?') then 1 else 0 := by
  induction n with
  | zero => intro t k; simp
  | succ n ih =>
    intro t k
    rw [List.range_succ, List.foldl_append]
    simp only [List.foldl_cons, List.foldl_nil]
    rcases n with _ | m
    · simp
    · have hpos : 0 < m + 1 := Nat.succ_pos m
      rw [if_pos hpos]
      rw [ih t k]
      by_cases ht : t = m
      · subst ht
        by_cases hk : k = c2i (w.getD (t + 1) '?')
        · have h1 : t + 1 < t + 1 + 1 := Nat.lt_succ_self _
          have h2 : ¬ t + 1 < t + 1 := Nat.lt_irrefl _
          simp [hk, h1, h2]
        · simp [hk]
      · by_cases hlt : t + 1 < m + 1
        · have h1 : t + 1 < m + 2 := by omega
          simp [ht, hlt, h1]
        · have h2 : ¬ t + 1 < m + 2 := by omega
          simp [ht, hlt, h2]

theorem encodeY_eq (c2i : Char → Nat) (w : List Char) (t k : Nat) :
    encodeY c2i w t k
      = if t + 1 < min w.length MAX_WORD_LEN ∧ k = c2i (w.getD (t + 1) '?') then 1 else 0 := by
  unfold encodeY
  exact encodeY_range c2i w _ t k

theorem Y_eq_X_shift (ws : List (List Char)) (i t k : Nat) :
    Y ws i t k = X ws i (t + 1) k := by
  rw [Y, X, encodeY_eq, encodeX_eq]

/-! ### Claim C7 -/

/-- C7: the target tensor is the input tensor shifted left by one timestep —
for every word index `i` and timestep `t < L - 1`, whenever the row
`X[i, t+1]` is non-zero, the row `Y[i, t]` equals it; and the final row
`Y[i, L-1]` is all-zero for every `i`. -/
theorem C7_Y_is_shifted_X (ws : List (List Char)) (i t : Nat)
    (ht : t < MAX_WORD_LEN - 1) (hne : ∃ k, X ws i (t + 1) k ≠ 0) :
    (∀ k, Y ws i t k = X ws i (t + 1) k) ∧
    (∀ j k, Y ws j (MAX_WORD_LEN - 1) k = 0) := by
  constructor
  · intro k
    exact Y_eq_X_shift ws i t k
  · intro j k
    rw [Y, encodeY_eq]
    apply if_neg
    intro hcon
    have h1 := hcon.1
    have h2 : min (ws.getD j []).length MAX_WORD_LEN ≤ MAX_WORD_LEN :=
      Nat.min_le_right _ _
    rw [MAX_WORD_LEN] at h1 h2
    omega

/-- C7 witness: the theorem applied to the word list `[['a', 'b', '\n']]` at
word 0, timestep 0, evaluated at the vocabulary index of `'b'` (which is 2 in
the sorted vocabulary `['\n', 'a', 'b']`). -/
theorem C7_witness : Y [['a', 'b', '\n']] 0 0 2 = X [['a', 'b', '\n']] 0 1 2 :=
  (C7_Y_is_shifted_X [['a', 'b', '\n']] 0 0 (by decide) ⟨2, by decide⟩).1 2

/-! ### Claim C8 -/

/-- C8: encoding round-trip — for every word of the word list and every
timestep `t` below `min(length, L)`, the row `X[i, t]` is one-hot at the
index of the word's `t`-th character (it is 1 there and every non-zero entry
is at that index), and decoding that index through `ix_to_char` reproduces
the character exactly; every timestep at or beyond the word's length is an
all-zero row. -/
theorem C8_encoding_round_trip (ws : List (List Char)) (i : Nat)
    (hi : i < ws.length) (t : Nat) :
    (t < min (ws.getD i []).length MAX_WORD_LEN →
      X ws i t (char_to_ix ws ((ws.getD i []).getD t '?')) = 1 ∧
      (∀ k, X ws i t k ≠ 0 → k = char_to_ix ws ((ws.getD i []).getD t '?')) ∧
      ix_to_char ws (char_to_ix ws ((ws.getD i []).getD t '?'))
        = (ws.getD i []).getD t '?') ∧
    ((ws.getD i []).length ≤ t → ∀ k, X ws i t k = 0) := by
  constructor
  · intro htl
    refine ⟨?_, ?_, ?_⟩
    · rw [X, encodeX_eq]
      rw [if_pos ⟨htl, rfl⟩]
    · intro k hk
      rw [X, encodeX_eq] at hk
      by_contra hne
      exact hk (if_neg (fun h => hne h.2))
    · apply ix_to_char_char_to_ix
      have hw : ws.getD i [] ∈ ws := by
        rw [list_getD_eq_getElem _ _ hi]
        exact List.getElem_mem _
      have htw : t < (ws.getD i []).length :=
        lt_of_lt_of_le htl (Nat.min_le_left _ _)
      have hc : (ws.getD i []).getD t '?' ∈ ws.getD i [] := by
        rw [list_getD_eq_getElem _ _ htw]
        exact List.getElem_mem _
      exact List.mem_flatten.2 ⟨_, hw, hc⟩
  · intro hlen k
    rw [X, encodeX_eq]
    apply if_neg
    intro hcon
    have h1 : t < (ws.getD i []).length :=
      lt_of_lt_of_le hcon.1 (Nat.min_le_left _ _)
    omega

/-- C8 witness: the theorem applied to the word list `[['a', '\n']]` at word
0, timestep 0. -/
theorem C8_witness :
    X [['a', '\n']] 0 0 (char_to_ix [['a', '\n']] (([['a', '\n']].getD 0 []).getD 0 '?'))
      = 1 :=
  ((C8_encoding_round_trip [['a', '\n']] 0 (by decide) 0).1 (by decide)).1

/-! ### Claim C9 -/

/-- C9 counterexample: the claim quantifies over every word list whose words
each contain the newline end marker and asserts index 0 is the newline; but
the vocabulary is the *sorted* character set, so any character with a smaller
code point than `'\n'` (here a tab) takes index 0.  For the word list
`["\ta\n"]`, every word contains the newline yet index 0 maps to `'\t'`. -/
theorem C9_counterexample :
    (∀ w ∈ [['\t', 'a', '\n']], '\n' ∈ w) ∧
    ix_to_char [['\t', 'a', '\n']] 0 ≠ '\n' := by
  decide

theorem vocab_head_le_mem (ws : List (List Char)) {c : Char}
    (hc : c ∈ ws.flatten) : ix_to_char ws 0 ≤ c := by
  have hm : c ∈ vocabChars ws := mem_vocabChars.2 hc
  rcases hv : vocabChars ws with _ | ⟨a, l⟩
  · rw [hv] at hm
    simp at hm
  · have hs := vocabChars_sorted ws
    rw [hv] at hs hm
    have hale : ∀ b ∈ l, a ≤ b := List.rel_of_sorted_cons hs
    have hac : a ≤ c := by
      rcases List.mem_cons.1 hm with h | h
      · exact le_of_eq h.symm
      · exact hale _ h
    unfold ix_to_char
    rw [hv]
    exact hac

/-- C9 (amended): for every word list whatsoever, the two mappings
`ix_to_char` and `char_to_ix` are mutual inverses between valid indices and
vocabulary characters, and index 0 holds the minimum character of the word
list in code-point order; this minimum is the newline end-of-word marker
exactly when the newline occurs and no character below it (e.g. a tab)
occurs.  Determinism is definitional: the construction is a pure function of
the word list. -/
theorem C9_vocab_invariant (ws : List (List Char)) :
    (∀ i, i < (vocabChars ws).length → char_to_ix ws (ix_to_char ws i) = i) ∧
    (∀ c ∈ ws.flatten, ix_to_char ws (char_to_ix ws c) = c) ∧
    (∀ c ∈ ws.flatten, ix_to_char ws 0 ≤ c) ∧
    ('\n' ∈ ws.flatten → (∀ c ∈ ws.flatten, '\n' ≤ c) → ix_to_char ws 0 = '\n') := by
  refine ⟨?_, ?_, ?_, ?_⟩
  · intro i hilt
    exact char_to_ix_ix_to_char hilt
  · intro c hc
    exact ix_to_char_char_to_ix hc
  · intro c hc
    exact vocab_head_le_mem ws hc
  · intro h1 h2
    exact vocab_head_eq_newline ws h1 h2

/-- C9 witness: the amended theorem applied to the word list `["a\n"]` —
its round-trip conjunct at `'a'` and its newline conjunct. -/
theorem C9_witness :
    ix_to_char [['a', '\n']] (char_to_ix [['a', '\n']] 'a') = 'a' ∧
    ix_to_char [['a', '\n']] 0 = '\n' :=
  ⟨(C9_vocab_invariant [['a', '\n']]).2.1 'a' (by decide),
   (C9_vocab_invariant [['a', '\n']]).2.2.2 (by decide) (by decide)⟩

/-! ### Lemmas about the inner rejection loop -/

theorem innerGo_zero_stream (i mL : Nat) (h : i < mL) :
    ∀ rem pos, innerGo (fun _ => 0) i mL 0 pos rem = (0, pos + rem + 1, true) := by
  intro rem
  induction rem with
  | zero =>
    intro pos
    simp [innerGo, h]
  | succ r ih =>
    intro pos
    have hstep : innerGo (fun _ => 0) i mL 0 pos (r + 1)
        = innerGo (fun _ => 0) i mL 0 (pos + 1) r := by
      simp [innerGo, h]
    rw [hstep, ih (pos + 1)]
    have harith : pos + 1 + r + 1 = pos + (r + 1) + 1 := by omega
    rw [harith]

theorem innerGo_pos_le (s : Nat → Nat) (i mL : Nat) :
    ∀ rem ix pos,
      pos ≤ (innerGo s i mL ix pos rem).2.1 ∧
      (innerGo s i mL ix pos rem).2.1 ≤ pos + rem + 1 := by
  intro rem
  induction rem with
  | zero =>
    intro ix pos
    by_cases h : ix = 0 ∧ i < mL
    · simp [innerGo, h]
    · simp [innerGo, h]
  | succ r ih =>
    intro ix pos
    by_cases h : ix = 0 ∧ i < mL
    · have h2 := ih (s pos) (pos + 1)
      simp only [innerGo, if_pos h]
      omega
    · simp [innerGo, h]
      omega

theorem innerGo_flag_last (s : Nat → Nat) (i mL : Nat) :
    ∀ rem ix pos, (innerGo s i mL ix pos rem).2.2 = true →
      (innerGo s i mL ix pos rem).1 = s ((innerGo s i mL ix pos rem).2.1 - 1) := by
  intro rem
  induction rem with
  | zero =>
    intro ix pos hf
    by_cases h : ix = 0 ∧ i < mL
    · simp [innerGo, h]
    · simp [innerGo, h] at hf
  | succ r ih =>
    intro ix pos hf
    by_cases h : ix = 0 ∧ i < mL
    · simp only [innerGo, if_pos h] at hf ⊢
      exact ih (s pos) (pos + 1) hf
    · simp [innerGo, h] at hf

theorem innerGo_src (s : Nat → Nat) (i mL : Nat) :
    ∀ rem ix pos,
      (innerGo s i mL ix pos rem).1 = ix ∨ ∃ n, (innerGo s i mL ix pos rem).1 = s n := by
  intro rem
  induction rem with
  | zero =>
    intro ix pos
    by_cases h : ix = 0 ∧ i < mL
    · right
      exact ⟨pos, by simp [innerGo, h]⟩
    · left
      simp [innerGo, h]
  | succ r ih =>
    intro ix pos
    by_cases h : ix = 0 ∧ i < mL
    · right
      simp only [innerGo, if_pos h]
      rcases ih (s pos) (pos + 1) with h1 | ⟨n, h1⟩
      · exact ⟨pos, h1⟩
      · exact ⟨n, h1⟩
    · left
      simp [innerGo, h]

theorem innerGo_noflag_zero (s : Nat → Nat) (i mL : Nat) :
    ∀ rem ix pos, (innerGo s i mL ix pos rem).2.2 = false →
      (innerGo s i mL ix pos rem).1 = 0 → mL ≤ i := by
  intro rem
  induction rem with
  | zero =>
    intro ix pos hf hz
    by_cases h : ix = 0 ∧ i < mL
    · simp [innerGo, h] at hf
    · simp [innerGo, h] at hz
      rw [Decidable.not_and_iff_or_not] at h
      rcases h with h | h
      · exact absurd hz h
      · omega
  | succ r ih =>
    intro ix pos hf hz
    by_cases h : ix = 0 ∧ i < mL
    · simp only [innerGo, if_pos h] at hf hz
      exact ih (s pos) (pos + 1) hf hz
    · simp [innerGo, h] at hz
      rw [Decidable.not_and_iff_or_not] at h
      rcases h with h | h
      · exact absurd hz h
      · omega

/-! ### Claim C4 -/

/-- C4 counterexample: the claim says the rejection loop resamples at most
1000 times, but the `ctr > 1000` test runs *after* the increment and the
redraw, so the loop performs 1001 resamples before giving up.  With an
all-zero draw stream at step `i = 1 < min_word_length = 4` and initial draw
`0` made at oracle position 0, the loop's final oracle position is 1002:
it consumed positions 1..1001, i.e. 1001 resamples — more than 1000. -/
theorem C4_counterexample :
    ¬ ((innerGo (fun _ => 0) 1 4 0 1 1000).2.1 - 1 ≤ 1000) := by
  rw [innerGo_zero_stream 1 4 (by omega) 1000 1]
  norm_num

/-- C4 (amended): the minimum-length rejection loop resamples an early
end-of-word marker at most 1001 times (the `ctr > 1000` break fires after
the 1001st redraw); on exhaustion of the cap it gives up, emits only a
diagnostic message, and accepts whatever the final redraw produced — the end
marker itself when the draws keep returning it, yielding a short word — and
never raises an error or aborts the run (the loop is total).  Stated over
the embedding: the number of oracle draws the loop consumes beyond the
initial one is at most 1001, and whenever the cap-exhausted flag is set the
accepted index is the last draw made. -/
theorem C4_resample_cap (s : Nat → Nat) (i mL ix pos : Nat) :
    (innerGo s i mL ix pos 1000).2.1 - pos ≤ 1001 ∧
    ((innerGo s i mL ix pos 1000).2.2 = true →
      (innerGo s i mL ix pos 1000).1 = s ((innerGo s i mL ix pos 1000).2.1 - 1)) := by
  constructor
  · have h := innerGo_pos_le s i mL 1000 ix pos
    omega
  · exact innerGo_flag_last s i mL 1000 ix pos

/-- C4 witness: the amended theorem applied to the all-zero draw stream at
step 1 with the default minimum word length 4; the cap is exhausted, the loop
stops after 1001 resamples, and it accepts the end marker (the last draw). -/
theorem C4_witness :
    (innerGo (fun _ => 0) 1 4 0 1 1000).2.1 - 1 ≤ 1001 ∧
    (innerGo (fun _ => 0) 1 4 0 1 1000).1
      = (fun _ => 0) ((innerGo (fun _ => 0) 1 4 0 1 1000).2.1 - 1) :=
  ⟨(C4_resample_cap (fun _ => 0) 1 4 0 1).1,
   (C4_resample_cap (fun _ => 0) 1 4 0 1).2
     (by rw [innerGo_zero_stream 1 4 (by omega) 1000 1])⟩

/-! ### Lemmas about characters and the vocabulary head -/

theorem char_le_iff_toNat_le {a b : Char} : a ≤ b ↔ a.toNat ≤ b.toNat := by
  rw [Char.le_def, UInt32.le_def, BitVec.le_def]
  exact Iff.rfl

theorem vocab_head_le_newline (ws : List (List Char)) (h1 : '\n' ∈ ws.flatten) :
    ix_to_char ws 0 ≤ '\n' := by
  have hm : '\n' ∈ vocabChars ws := mem_vocabChars.2 h1
  rcases hv : vocabChars ws with _ | ⟨a, l⟩
  · rw [hv] at hm
    simp at hm
  · have hs := vocabChars_sorted ws
    rw [hv] at hs hm
    have hale : ∀ b ∈ l, a ≤ b := List.rel_of_sorted_cons hs
    have h_an : a ≤ '\n' := by
      rcases List.mem_cons.1 hm with h | h
      · exact le_of_eq h.symm
      · exact hale _ h
    unfold ix_to_char
    rw [hv]
    exact h_an

theorem ix_to_char_inj (ws : List (List Char)) {a b : Nat}
    (ha : a < (vocabChars ws).length) (hb : b < (vocabChars ws).length)
    (h : ix_to_char ws a = ix_to_char ws b) : a = b := by
  have h1 := char_to_ix_ix_to_char ha
  have h2 := char_to_ix_ix_to_char hb
  rw [← h1, ← h2, h]

theorem toUpper_ne_of_small {m c : Char} (hm : m.toNat ≤ 10) (hne : c ≠ m) :
    c.toUpper ≠ m := by
  simp only [Char.toUpper]
  by_cases h : c.toNat ≥ 97 ∧ c.toNat ≤ 122
  · rw [if_pos h]
    intro heq
    have hv : (c.toNat - 32).isValidChar := Or.inl (by omega)
    have htn : (Char.ofNat (c.toNat - 32)).toNat = c.toNat - 32 := by
      rw [Char.ofNat, dif_pos hv]
      rfl
    rw [heq] at htn
    omega
  · rw [if_neg h]
    exact hne

/-! ### Lemmas about the first-character loop and the generation loop -/

theorem sampleFirst_spec (s : Nat → Nat) :
    ∀ fuel pos ix pos', sampleFirst s fuel pos = some (ix, pos') →
      ix ≠ 0 ∧ ∃ n, ix = s n := by
  intro fuel
  induction fuel with
  | zero =>
    intro pos ix pos' h
    simp [sampleFirst] at h
  | succ f ih =>
    intro pos ix pos' h
    rw [sampleFirst] at h
    by_cases hz : s pos = 0
    · rw [if_pos hz] at h
      exact ih _ _ _ h
    · rw [if_neg hz] at h
      rw [Option.some.injEq, Prod.mk.injEq] at h
      obtain ⟨h1, _⟩ := h
      exact ⟨h1 ▸ hz, ⟨pos, h1.symm⟩⟩

theorem genLoop_succ (s : Nat → Nat) (i2c : Nat → Char) (minLen st i pos : Nat)
    (word : List Char) (capEx : Bool) :
    genLoop s i2c minLen (st + 1) i pos word capEx =
      (if (innerGo s i minLen (s pos) (pos + 1) 1000).1 = 0
        then (word, capEx || (innerGo s i minLen (s pos) (pos + 1) 1000).2.2)
        else genLoop s i2c minLen st (i + 1) (innerGo s i minLen (s pos) (pos + 1) 1000).2.1
          (word ++ [i2c (innerGo s i minLen (s pos) (pos + 1) 1000).1])
          (capEx || (innerGo s i minLen (s pos) (pos + 1) 1000).2.2)) :=
  rfl

theorem genLoop_spec (s : Nat → Nat) (i2c : Nat → Char) (minLen : Nat) :
    ∀ steps i pos word capEx,
      steps + i = MAX_WORD_LEN → 1 ≤ i → word.length = i →
      ∃ tail,
        (genLoop s i2c minLen steps i pos word capEx).1 = word ++ tail ∧
        (∀ c ∈ tail, ∃ j, j ≠ 0 ∧ (∃ n, j = s n) ∧ c = i2c j) ∧
        (genLoop s i2c minLen steps i pos word capEx).1.length ≤ MAX_WORD_LEN ∧
        ((genLoop s i2c minLen steps i pos word capEx).2 = false →
          min minLen MAX_WORD_LEN ≤ (genLoop s i2c minLen steps i pos word capEx).1.length) := by
  intro steps
  induction steps with
  | zero =>
    intro i pos word capEx hsum h1 hlen
    refine ⟨[], by simp [genLoop], by simp, ?_, ?_⟩
    · simp only [genLoop]
      rw [hlen]
      omega
    · intro _
      simp only [genLoop]
      rw [hlen]
      have : i = MAX_WORD_LEN := by omega
      rw [this]
      exact Nat.min_le_right _ _
  | succ st ih =>
    intro i pos word capEx hsum h1 hlen
    rw [genLoop_succ]
    by_cases hz : (innerGo s i minLen (s pos) (pos + 1) 1000).1 = 0
    · rw [if_pos hz]
      refine ⟨[], by simp, by simp, ?_, ?_⟩
      · simp only []
        rw [hlen]
        omega
      · intro hf
        simp only [Bool.or_eq_false_iff] at hf
        have hml : minLen ≤ i :=
          innerGo_noflag_zero s i minLen 1000 (s pos) (pos + 1) hf.2 hz
        simp only []
        rw [hlen]
        exact le_trans (Nat.min_le_left _ _) hml
    · rw [if_neg hz]
      have ihr := ih (i + 1) (innerGo s i minLen (s pos) (pos + 1) 1000).2.1
        (word ++ [i2c (innerGo s i minLen (s pos) (pos + 1) 1000).1])
        (capEx || (innerGo s i minLen (s pos) (pos + 1) 1000).2.2)
        (by omega) (by omega) (by simp [hlen])
      obtain ⟨tail, ht1, ht2, ht3, ht4⟩ := ihr
      refine ⟨i2c (innerGo s i minLen (s pos) (pos + 1) 1000).1 :: tail, ?_, ?_, ht3, ht4⟩
      · rw [ht1]
        simp
      · intro c hc
        rcases List.mem_cons.1 hc with h | h
        · refine ⟨(innerGo s i minLen (s pos) (pos + 1) 1000).1, hz, ?_, h⟩
          rcases innerGo_src s i minLen 1000 (s pos) (pos + 1) with h1 | ⟨n, h1⟩
          · exact ⟨pos, h1⟩
          · exact ⟨n, h1⟩
        · exact ht2 c h

theorem generate_word_none (s : Nat → Nat) (i2c : Nat → Char) (m f : Nat)
    (h : sampleFirst s f 0 = none) : generate_word s i2c m f = none := by
  unfold generate_word
  rw [h]

theorem generate_word_some (s : Nat → Nat) (i2c : Nat → Char) (m f ix pos : Nat)
    (h : sampleFirst s f 0 = some (ix, pos)) :
    generate_word s i2c m f
      = some (genLoop s i2c m (MAX_WORD_LEN - 1) 1 pos [(i2c ix).toUpper] false) := by
  unfold generate_word
  rw [h]

/-! ### Claim C3 -/

/-- C3: contract of `generate_word` — assuming the model's forward pass
returns valid probability distributions (so every oracle draw is an index
below the vocabulary size), the word list contains the newline end marker
(the program's inputs are newline-terminated words), and the call terminates
(the uncapped first-character loop succeeds within its fuel), every returned
word has between 1 and `MAX_WORD_LEN = 12` characters, its first character is
an uppercased character, it never contains the end-of-word marker character
(the character at vocabulary index 0) as a literal character, and its length
is at least `min_word_length = 4` unless the 1000-attempt resampling cap was
exhausted. -/
theorem C3_generate_word_contract (ws : List (List Char)) (s : Nat → Nat)
    (fuel : Nat) (w : List Char) (capEx : Bool)
    (hnl : '\n' ∈ ws.flatten)
    (hs : ∀ n, s n < (vocabChars ws).length)
    (hgen : generate_word s (ix_to_char ws) 4 fuel = some (w, capEx)) :
    (1 ≤ w.length ∧ w.length ≤ MAX_WORD_LEN) ∧
    (∃ c : Char, w.head? = some c.toUpper) ∧
    ix_to_char ws 0 ∉ w ∧
    (capEx = false → 4 ≤ w.length) := by
  rcases hsf : sampleFirst s fuel 0 with _ | ⟨ix, pos⟩
  · rw [generate_word_none s _ 4 fuel hsf] at hgen
    exact absurd hgen (by simp)
  · rw [generate_word_some s _ 4 fuel ix pos hsf] at hgen
    rw [Option.some.injEq] at hgen
    obtain ⟨hix0, n0, hixs⟩ := sampleFirst_spec s fuel 0 ix pos hsf
    have hixV : ix < (vocabChars ws).length := hixs ▸ hs n0
    have h0V : 0 < (vocabChars ws).length := lt_of_le_of_lt (Nat.zero_le ix) hixV
    obtain ⟨tail, ht1, ht2, ht3, ht4⟩ :=
      genLoop_spec s (ix_to_char ws) 4 (MAX_WORD_LEN - 1) 1 pos
        [(ix_to_char ws ix).toUpper] false (by decide) (le_refl 1) (by simp)
    rw [hgen] at ht1 ht3 ht4
    have hw : w = (ix_to_char ws ix).toUpper :: tail := ht1
    have hm10 : (ix_to_char ws 0).toNat ≤ 10 := by
      have hle := char_le_iff_toNat_le.1 (vocab_head_le_newline ws hnl)
      have h10 : ('\n').toNat = 10 := rfl
      omega
    refine ⟨⟨?_, ht3⟩, ?_, ?_, ?_⟩
    · rw [hw]
      simp
    · exact ⟨ix_to_char ws ix, by rw [hw]; rfl⟩
    · rw [hw]
      intro hmem
      rcases List.mem_cons.1 hmem with h | h
      · have hmne : ix_to_char ws ix ≠ ix_to_char ws 0 := by
          intro he
          exact hix0 (ix_to_char_inj ws hixV h0V he)
        exact toUpper_ne_of_small hm10 hmne h.symm
      · obtain ⟨j, hj0, ⟨n, hjs⟩, hcj⟩ := ht2 _ h
        have hjV : j < (vocabChars ws).length := hjs ▸ hs n
        exact hj0 (ix_to_char_inj ws hjV h0V hcj.symm)
    · intro hcf
      have h4 := ht4 hcf
      have hmin : (4 : Nat) ⊓ MAX_WORD_LEN = 4 := by decide
      rw [hmin] at h4
      exact h4

/-- C3 witness: the contract applied to the word list `["a\n"]` (vocabulary
`['\n', 'a']`) with the constant oracle stream drawing index 1 (`'a'`) at
every step; the generated word is "Aaaaaaaaaaaa" (length 12, no cap
exhaustion), and in particular the end-marker character `'\n'` does not occur
in it. -/
theorem C3_witness :
    ix_to_char [['a', '\n']] 0 ∉
      (['A', 'a', 'a', 'a', 'a', 'a', 'a', 'a', 'a', 'a', 'a', 'a'] : List Char) :=
  (C3_generate_word_contract [['a', '\n']] (fun _ => 1) 1
    ['A', 'a', 'a', 'a', 'a', 'a', 'a', 'a', 'a', 'a', 'a', 'a'] false
    (by decide)
    (fun n => by
      show (1 : Nat) < (vocabChars [['a', '\n']]).length
      have hv : (vocabChars [['a', '\n']]).length = 2 := by decide
      omega)
    (by decide)).2.2.1
